import Mathlib

/-!
Shallow embedding of the numeric core of `cr-components`:
`packages/ui/src/lib/cumulative-utils.ts` (binary-search bounds, threshold
counting, scale mapping, tick generation) and the distribution-building and
drag-fraction logic of
`packages/ui/src/components/cumulative-density-filter.tsx`.

Arrays of JS numbers are modelled as `List ℚ` where only ordered-field
arithmetic occurs (exact rational arithmetic stands in for IEEE doubles), and
as `List ℝ` where the code calls the transcendental `Math.log` / `Math.exp`.
-/

namespace CrComponents

/-- Shared shape of the two binary-search loops of `cumulative-utils.ts`:
`lowerBound` runs it with the probe `arr[m] < x`, `upperBound` with
`arr[m] <= x`.  `const m = (l + r) >> 1` is natural division by two (array
lengths are far below 2^31, so the JS 32-bit shift is exact).  The
non-null-asserted access `arr[m]!` is modelled as `getD` with default `0`;
the loop keeps `m < arr.length`, so the default is never consulted. -/
def bsearchAux (arr : List ℚ) (p : ℚ → Bool) (l r : ℕ) : ℕ :=
  if h : l < r then
    if p (arr.getD ((l + r) / 2) 0) then bsearchAux arr p ((l + r) / 2 + 1) r
    else bsearchAux arr p l ((l + r) / 2)
  else l
  termination_by r - l
  decreasing_by
  · omega
  · omega

/-- `lowerBound` from `cumulative-utils.ts`: binary search for the first
index whose element is not `< x`. -/
def lowerBound (arr : List ℚ) (x : ℚ) : ℕ :=
  bsearchAux arr (fun v => decide (v < x)) 0 arr.length

/-- `upperBound` from `cumulative-utils.ts`: binary search for the first
index whose element is not `<= x`. -/
def upperBound (arr : List ℚ) (x : ℚ) : ℕ :=
  bsearchAux arr (fun v => decide (v ≤ x)) 0 arr.length

/-- `getCountAtThreshold` from `cumulative-utils.ts`.  The TS `switch` on the
mode string is an equality chain with a `default` falling back to
`upperBound`; `Math.max(0, n - i)` is ℕ truncated subtraction. -/
def getCountAtThreshold (mode : String) (sortedValues : List ℚ) (t : ℚ) : ℕ :=
  if sortedValues.length = 0 then 0
  else if mode = "lt" then lowerBound sortedValues t
  else if mode = "lte" then upperBound sortedValues t
  else if mode = "gt" then sortedValues.length - upperBound sortedValues t
  else if mode = "gte" then sortedValues.length - lowerBound sortedValues t
  else upperBound sortedValues t

/-- `[...values].sort((a, b) => a - b)` from the component's `useMemo`: an
ascending sort of the raw values.  Any sorting algorithm is observationally
identical here (with a numeric comparator, JS `sort` is determined up to the
order of equal numbers, which are indistinguishable values); a structurally
recursive sort keeps the model kernel-computable. -/
def sortedOf (values : List ℚ) : List ℚ :=
  values.insertionSort (· ≤ ·)

/-- `sorted[0]!` — the minimum of the value collection. -/
def minOf (values : List ℚ) : ℚ := (sortedOf values).getD 0 0

/-- `sorted[sorted.length - 1]!` — the maximum of the value collection. -/
def maxOf (values : List ℚ) : ℚ :=
  (sortedOf values).getD ((sortedOf values).length - 1) 0

/-- The inner `while (currentIndex < sorted.length && sorted[currentIndex]! <= binValue) currentIndex++`
loop of the component's binning pass. -/
def advanceIndex (sorted : List ℚ) (b : ℚ) (ci : ℕ) : ℕ :=
  if ci < sorted.length ∧ sorted.getD ci 0 ≤ b then advanceIndex sorted b (ci + 1)
  else ci
  termination_by sorted.length - ci
  decreasing_by omega

/-- The `for (let i = 0; i <= binCount; i++)` loop of the component's binning
pass, carrying the running index `ci` across iterations. -/
def binPoints (sorted : List ℚ) (minV binSize : ℚ) (binCount i ci : ℕ) :
    List (ℚ × ℕ) :=
  if i ≤ binCount then
    (minV + (i : ℚ) * binSize, advanceIndex sorted (minV + (i : ℚ) * binSize) ci) ::
      binPoints sorted minV binSize binCount (i + 1)
        (advanceIndex sorted (minV + (i : ℚ) * binSize) ci)
  else []
  termination_by binCount + 1 - i
  decreasing_by omega

/-- The distribution-building `useMemo` of `cumulative-density-filter.tsx`,
returning the `chartData` list of `(value, count)` points in its four
regimes: empty input, all-identical values, exact points (`n <= 50`), and
evenly spaced bins (`n > 50`). -/
def buildDistribution (values : List ℚ) : List (ℚ × ℕ) :=
  if values.length = 0 then []
  else if minOf values = maxOf values then
    [(minOf values, 0), (minOf values, (sortedOf values).length)]
  else if (sortedOf values).length ≤ 50 then
    (List.range (sortedOf values).length).map
      (fun i => ((sortedOf values).getD i 0, i + 1))
  else
    binPoints (sortedOf values) (minOf values)
      ((maxOf values - minOf values) / (min 100 (sortedOf values).length : ℕ))
      (min 100 (sortedOf values).length) 0 0

open Classical in
/-- `thresholdToPercentage` from `cumulative-utils.ts`; `Math.log` is
`Real.log`. -/
noncomputable def thresholdToPercentage (minV maxV t : ℝ) (logScale : Bool) : ℝ :=
  if maxV = minV then 0
  else if logScale = true ∧ 0 < minV ∧ 0 < maxV ∧ 0 < t then
    ((Real.log t - Real.log minV) / (Real.log maxV - Real.log minV)) * 100
  else ((t - minV) / (maxV - minV)) * 100

open Classical in
/-- The position→value interpolation of `handleMouseMove` in
`cumulative-density-filter.tsx` (the spec's `fractionToValue`): log-space
interpolation when `logScale && minValue > 0`, otherwise linear. -/
noncomputable def fractionToValue (minV maxV p : ℝ) (logScale : Bool) : ℝ :=
  if logScale = true ∧ 0 < minV then
    Real.exp (Real.log minV + p * (Real.log maxV - Real.log minV))
  else minV + p * (maxV - minV)

/-- `Math.max(6, Math.round((containerWidth || 0) / 40))` from
`computeTicks`.  Mathlib's `round` is `⌊x + 1/2⌋`, exactly JS
`Math.round`'s round-half-toward-+∞; a negative rounding result is absorbed
by the outer `max 6` in both semantics (`Int.toNat` only collapses values
that `max 6` discards anyway). -/
noncomputable def autoTickCount (w : ℝ) : ℕ := max 6 (round (w / 40)).toNat

open Classical in
/-- `computeTicks` from `cumulative-utils.ts`.  `xAxisTicks ?? autoTickCount`
is `Option.getD`; `!count || count < 2` collapses to `count < 2` over ℕ. -/
noncomputable def computeTicks (minValue maxValue : ℝ) (logScale : Bool)
    (containerWidth : ℝ) (xAxisTicks : Option ℕ) : Option (List ℝ) :=
  if maxValue = minValue then none
  else if xAxisTicks.getD (autoTickCount containerWidth) < 2 then none
  else if logScale = true ∧ 0 < minValue then
    some ((List.range (xAxisTicks.getD (autoTickCount containerWidth))).map
      (fun (i : ℕ) => Real.exp (Real.log minValue +
        ((i : ℝ) / ((xAxisTicks.getD (autoTickCount containerWidth) : ℝ) - 1)) *
          (Real.log maxValue - Real.log minValue))))
  else
    some ((List.range (xAxisTicks.getD (autoTickCount containerWidth))).map
      (fun (i : ℕ) => minValue +
        ((i : ℝ) / ((xAxisTicks.getD (autoTickCount containerWidth) : ℝ) - 1)) *
          (maxValue - minValue)))

open Classical in
/-- The fraction computed by `handleMouseMove`:
`Math.max(0, Math.min(1, x / rect.width || 1))` with `x = e.clientX - rect.left`.
Because `/` binds tighter than `||`, the `|| 1` fallback applies to the
quotient, not to the width.  Translating the IEEE-754 evaluation to exact
reals: a zero quotient — including the `NaN` from `0 / 0`, which is falsy —
becomes `1`; with zero width and `x > 0` the quotient is `+∞` and the clamp
yields `1`; with zero width and `x < 0` it is `-∞` and the clamp yields `0`. -/
noncomputable def dragFraction (x w : ℝ) : ℝ :=
  if w = 0 then (if x < 0 then 0 else 1)
  else if x / w = 0 then 1
  else max 0 (min 1 (x / w))

/-! ### Counting helpers -/

/-- If a Bool predicate holds at exactly the positions below `k`, the list has
exactly `k` satisfying elements. -/
lemma countP_eq_of_boundary (p : ℚ → Bool) :
    ∀ (s : List ℚ) (k : ℕ), k ≤ s.length →
      (∀ i, i < k → p (s.getD i 0) = true) →
      (∀ i, k ≤ i → i < s.length → p (s.getD i 0) = false) →
      s.countP p = k := by
  intro s
  induction s with
  | nil =>
    intro k hk _ _
    have hk0 : k = 0 := by simpa using hk
    simp [hk0]
  | cons a tl ih =>
    intro k hk h1 h2
    cases k with
    | zero =>
      have ha : p a = false := by simpa using h2 0 (Nat.le_refl 0) (by simp)
      rw [List.countP_cons_of_neg _ _ (by simp [ha])]
      apply ih 0 (Nat.zero_le _) (by omega)
      intro i _ hi
      simpa using h2 (i + 1) (Nat.zero_le _) (by simpa using Nat.succ_lt_succ hi)
    | succ j =>
      have ha : p a = true := by simpa using h1 0 (Nat.succ_pos j)
      rw [List.countP_cons_of_pos _ _ ha]
      have htl : tl.countP p = j := by
        apply ih j (by simpa using hk)
        · intro i hi
          simpa using h1 (i + 1) (by omega)
        · intro i hji hi
          simpa using h2 (i + 1) (by omega) (by simpa using Nat.succ_lt_succ hi)
      omega

/-- Adjacent-position monotonicity of `getD` on a sorted list. -/
lemma sorted_getD_mono {s : List ℚ} (hs : List.Sorted (· ≤ ·) s) {i j : ℕ}
    (hij : i ≤ j) (hj : j < s.length) : s.getD i 0 ≤ s.getD j 0 := by
  have hi : i < s.length := Nat.lt_of_le_of_lt hij hj
  rcases Nat.eq_or_lt_of_le hij with rfl | hlt
  · exact le_refl _
  · rw [List.getD_eq_getElem _ _ hi, List.getD_eq_getElem _ _ hj]
    have := List.pairwise_iff_get.mp hs ⟨i, hi⟩ ⟨j, hj⟩ hlt
    simpa using this

/-- On a sorted list, a value-downward-closed predicate is downward closed
along positions. -/
lemma downward_getD {s : List ℚ} (hs : List.Sorted (· ≤ ·) s) {p : ℚ → Bool}
    (hp : ∀ u v : ℚ, u ≤ v → p v = true → p u = true) :
    ∀ i j, i ≤ j → j < s.length → p (s.getD j 0) = true → p (s.getD i 0) = true :=
  fun _ _ hij hj hpj => hp _ _ (sorted_getD_mono hs hij hj) hpj

/-- On a sorted list, every position below the count of a value-downward-closed
predicate satisfies it. -/
lemma sorted_below_countP (p : ℚ → Bool)
    (hp : ∀ u v : ℚ, u ≤ v → p v = true → p u = true) :
    ∀ (s : List ℚ), List.Sorted (· ≤ ·) s →
      ∀ j, j < s.countP p → p (s.getD j 0) = true := by
  intro s
  induction s with
  | nil => intro _ j hj; simp at hj
  | cons a tl ih =>
    intro hs j hj
    have hstl : List.Sorted (· ≤ ·) tl := (List.sorted_cons.mp hs).2
    have hmem : ∀ x ∈ tl, a ≤ x := (List.sorted_cons.mp hs).1
    by_cases hpa : p a = true
    · cases j with
      | zero => simpa using hpa
      | succ j =>
        rw [List.countP_cons_of_pos _ _ hpa] at hj
        simpa using ih hstl j (by omega)
    · have h0 : tl.countP p = 0 := by
        apply List.countP_eq_zero.mpr
        intro x hx hpx
        exact hpa (hp a x (hmem x hx) hpx)
      rw [List.countP_cons_of_neg _ _ (by simp [Bool.not_eq_true] at hpa ⊢; exact hpa), h0] at hj
      omega

/-! ### Binary-search correctness -/

/-- The search result stays within the initial bracket. -/
lemma bsearchAux_range (arr : List ℚ) (p : ℚ → Bool) :
    ∀ (n l r : ℕ), r - l ≤ n → l ≤ r →
      l ≤ bsearchAux arr p l r ∧ bsearchAux arr p l r ≤ r := by
  intro n
  induction n with
  | zero =>
    intro l r h hlr
    have : l = r := by omega
    subst this
    rw [bsearchAux]
    simp
  | succ n ih =>
    intro l r h hlr
    rw [bsearchAux]
    by_cases hlt : l < r
    · rw [dif_pos hlt]
      by_cases hpm : p (arr.getD ((l + r) / 2) 0) = true
      · rw [if_pos hpm]
        have := ih ((l + r) / 2 + 1) r (by omega) (by omega)
        exact ⟨by omega, this.2⟩
      · rw [if_neg hpm]
        have := ih l ((l + r) / 2) (by omega) (by omega)
        exact ⟨this.1, by omega⟩
    · rw [dif_neg hlt]
      exact ⟨le_refl _, hlr⟩

/-- Bracket invariant of the binary search: for a positionally downward-closed
predicate, the result separates the initial `true` block from the trailing `false` block. -/
lemma bsearchAux_boundary (arr : List ℚ) (p : ℚ → Bool)
    (hp : ∀ i j, i ≤ j → j < arr.length →
      p (arr.getD j 0) = true → p (arr.getD i 0) = true) :
    ∀ (n l r : ℕ), r - l ≤ n → l ≤ r → r ≤ arr.length →
      (∀ i, i < l → p (arr.getD i 0) = true) →
      (∀ i, r ≤ i → i < arr.length → p (arr.getD i 0) = false) →
      (∀ i, i < bsearchAux arr p l r → p (arr.getD i 0) = true) ∧
      (∀ i, bsearchAux arr p l r ≤ i → i < arr.length → p (arr.getD i 0) = false) := by
  intro n
  induction n with
  | zero =>
    intro l r h hlr _ h1 h2
    have : l = r := by omega
    subst this
    rw [bsearchAux]
    simp only [lt_irrefl, dite_false]
    exact ⟨h1, h2⟩
  | succ n ih =>
    intro l r h hlr hrlen h1 h2
    rw [bsearchAux]
    by_cases hlt : l < r
    · rw [dif_pos hlt]
      have hm : (l + r) / 2 < arr.length := by omega
      by_cases hpm : p (arr.getD ((l + r) / 2) 0) = true
      · rw [if_pos hpm]
        apply ih ((l + r) / 2 + 1) r (by omega) (by omega) hrlen _ h2
        intro i hi
        exact hp i ((l + r) / 2) (by omega) hm hpm
      · rw [if_neg hpm]
        apply ih l ((l + r) / 2) (by omega) (by omega) (by omega) h1 _
        intro i hmi hilen
        by_contra hcon
        rw [Bool.not_eq_false] at hcon
        exact hpm (hp ((l + r) / 2) i hmi hilen hcon)
    · rw [dif_neg hlt]
      have hlr2 : l = r := by omega
      subst hlr2
      exact ⟨h1, h2⟩

/-- Full binary search over a sorted list computes the satisfying count of a
value-downward-closed predicate. -/
lemma bsearch_eq_countP (arr : List ℚ) (p : ℚ → Bool)
    (hs : List.Sorted (· ≤ ·) arr)
    (hp : ∀ u v : ℚ, u ≤ v → p v = true → p u = true) :
    bsearchAux arr p 0 arr.length = arr.countP p := by
  have hrange := bsearchAux_range arr p arr.length 0 arr.length (by omega) (Nat.zero_le _)
  have hbd := bsearchAux_boundary arr p (downward_getD hs hp) arr.length 0 arr.length
    (by omega) (Nat.zero_le _) (le_refl _) (by omega) (by omega)
  exact (countP_eq_of_boundary p arr _ hrange.2 hbd.1 hbd.2).symm

/-- `lowerBound` on a sorted list counts the elements `< x`. -/
lemma lowerBound_eq_countP {s : List ℚ} (hs : List.Sorted (· ≤ ·) s) (x : ℚ) :
    lowerBound s x = s.countP (fun v => decide (v < x)) := by
  apply bsearch_eq_countP s _ hs
  intro u v huv hv
  rw [decide_eq_true_eq] at hv ⊢
  exact lt_of_le_of_lt huv hv

/-- `upperBound` on a sorted list counts the elements `≤ x`. -/
lemma upperBound_eq_countP {s : List ℚ} (hs : List.Sorted (· ≤ ·) s) (x : ℚ) :
    upperBound s x = s.countP (fun v => decide (v ≤ x)) := by
  apply bsearch_eq_countP s _ hs
  intro u v huv hv
  rw [decide_eq_true_eq] at hv ⊢
  exact le_trans huv hv

/-- `lowerBound` never exceeds the length, sorted or not. -/
lemma lowerBound_le_length (s : List ℚ) (x : ℚ) : lowerBound s x ≤ s.length :=
  (bsearchAux_range s _ s.length 0 s.length (by omega) (Nat.zero_le _)).2

/-- `upperBound` never exceeds the length, sorted or not. -/
lemma upperBound_le_length (s : List ℚ) (x : ℚ) : upperBound s x ≤ s.length :=
  (bsearchAux_range s _ s.length 0 s.length (by omega) (Nat.zero_le _)).2

/-! ### Sorting and binning -/

/-- The sorted copy is sorted ascending. -/
lemma sortedOf_sorted (values : List ℚ) : List.Sorted (· ≤ ·) (sortedOf values) :=
  List.sorted_insertionSort _ values

/-- The sorted copy is a permutation of the input. -/
lemma sortedOf_perm (values : List ℚ) : (sortedOf values).Perm values :=
  List.perm_insertionSort _ values

/-- The sorted copy has the length of the input. -/
lemma sortedOf_length (values : List ℚ) : (sortedOf values).length = values.length :=
  (sortedOf_perm values).length_eq

/-- The collection's minimum is at most its maximum. -/
lemma minOf_le_maxOf {values : List ℚ} (h : values.length ≠ 0) :
    minOf values ≤ maxOf values := by
  apply sorted_getD_mono (sortedOf_sorted values) (Nat.zero_le _)
  rw [sortedOf_length]
  omega

/-- The running-index advance computes the count of elements `≤ b`, given that
everything below the starting index is already `≤ b`. -/
lemma advanceIndex_eq (sorted : List ℚ) (hs : List.Sorted (· ≤ ·) sorted) (b : ℚ) :
    ∀ (n ci : ℕ), sorted.length - ci ≤ n → ci ≤ sorted.length →
      (∀ j, j < ci → sorted.getD j 0 ≤ b) →
      advanceIndex sorted b ci = sorted.countP (fun v => decide (v ≤ b)) := by
  intro n
  induction n with
  | zero =>
    intro ci h hci hpre
    have hlen : ci = sorted.length := by omega
    rw [advanceIndex, if_neg (by omega)]
    symm
    apply countP_eq_of_boundary _ _ ci (by omega)
    · intro i hi
      rw [decide_eq_true_eq]
      exact hpre i hi
    · intro i hcii hilen
      omega
  | succ n ih =>
    intro ci h hci hpre
    rw [advanceIndex]
    by_cases hcond : ci < sorted.length ∧ sorted.getD ci 0 ≤ b
    · rw [if_pos hcond]
      apply ih (ci + 1) (by omega) (by omega)
      intro j hj
      rcases Nat.lt_or_ge j ci with hj2 | hj2
      · exact hpre j hj2
      · have : j = ci := by omega
        rw [this]
        exact hcond.2
    · rw [if_neg hcond]
      rcases Nat.lt_or_ge ci sorted.length with hlt | hge
      · have hgt : ¬ sorted.getD ci 0 ≤ b := fun hle => hcond ⟨hlt, hle⟩
        symm
        apply countP_eq_of_boundary _ _ ci (Nat.le_of_lt hlt)
        · intro i hi
          rw [decide_eq_true_eq]
          exact hpre i hi
        · intro i hcii hilen
          rw [decide_eq_false_iff_not]
          intro hib
          exact hgt (le_trans (sorted_getD_mono hs hcii hilen) hib)
      · have hlen : ci = sorted.length := by omega
        symm
        apply countP_eq_of_boundary _ _ ci (by omega)
        · intro i hi
          rw [decide_eq_true_eq]
          exact hpre i hi
        · intro i hcii hilen
          omega

/-- The binning loop produces one point per boundary, whose count is the
number of sorted elements `≤` that boundary. -/
lemma binPoints_eq (sorted : List ℚ) (hs : List.Sorted (· ≤ ·) sorted)
    (minV binSize : ℚ) (hbs : 0 ≤ binSize) (binCount : ℕ) :
    ∀ (n i ci : ℕ), binCount + 1 - i ≤ n → ci ≤ sorted.length →
      (∀ j, j < ci → sorted.getD j 0 ≤ minV + (i : ℚ) * binSize) →
      binPoints sorted minV binSize binCount i ci =
        (List.range' i (binCount + 1 - i)).map (fun (k : ℕ) =>
          (minV + (k : ℚ) * binSize,
           sorted.countP (fun v => decide (v ≤ minV + (k : ℚ) * binSize)))) := by
  intro n
  induction n with
  | zero =>
    intro i ci h hci hpre
    have hi : binCount < i := by omega
    rw [binPoints, if_neg (by omega), show binCount + 1 - i = 0 from by omega]
    simp
  | succ n ih =>
    intro i ci h hci hpre
    by_cases hle : i ≤ binCount
    · rw [binPoints, if_pos hle]
      have hadv : advanceIndex sorted (minV + (i : ℚ) * binSize) ci
          = sorted.countP (fun v => decide (v ≤ minV + (i : ℚ) * binSize)) :=
        advanceIndex_eq sorted hs _ (sorted.length - ci) ci (le_refl _) hci hpre
      rw [hadv]
      rw [show binCount + 1 - i = (binCount - i) + 1 from by omega, List.range'_succ]
      rw [List.map_cons]
      congr 1
      have htail := ih (i + 1) (sorted.countP (fun v => decide (v ≤ minV + (i : ℚ) * binSize)))
        (by omega) (List.countP_le_length _)
        (by
          intro j hj
          have hjb : sorted.getD j 0 ≤ minV + (i : ℚ) * binSize := by
            have := sorted_below_countP (fun v => decide (v ≤ minV + (i : ℚ) * binSize))
              (fun u v huv hv => by
                rw [decide_eq_true_eq] at hv ⊢
                exact le_trans huv hv) sorted hs j hj
            exact of_decide_eq_true this
          have hcast : ((i + 1 : ℕ) : ℚ) = (i : ℚ) + 1 := by push_cast; ring
          rw [hcast]
          nlinarith)
      rw [htail, show binCount + 1 - (i + 1) = binCount - i from by omega]
    · rw [binPoints, if_neg hle, show binCount + 1 - i = 0 from by omega]
      simp

/-- Closed form of the binned regime of the distribution builder. -/
lemma buildDistribution_binned_eq (values : List ℚ)
    (h50 : 50 < values.length) (hmm : minOf values ≠ maxOf values) :
    buildDistribution values =
      (List.range (min 100 values.length + 1)).map (fun (i : ℕ) =>
        (minOf values + (i : ℚ) *
          ((maxOf values - minOf values) / ((min 100 values.length : ℕ) : ℚ)),
         (sortedOf values).countP (fun v => decide (v ≤ minOf values + (i : ℚ) *
           ((maxOf values - minOf values) / ((min 100 values.length : ℕ) : ℚ)))))) := by
  unfold buildDistribution
  rw [if_neg (by omega), if_neg hmm, if_neg (by rw [sortedOf_length]; omega)]
  rw [sortedOf_length]
  have hbs : (0 : ℚ) ≤ (maxOf values - minOf values) / ((min 100 values.length : ℕ) : ℚ) := by
    apply div_nonneg
    · have := minOf_le_maxOf (show values.length ≠ 0 by omega)
      linarith
    · positivity
  rw [binPoints_eq (sortedOf values) (sortedOf_sorted values) _ _ hbs _
    (min 100 values.length + 1) 0 0 (by omega) (Nat.zero_le _) (by omega)]
  rw [Nat.sub_zero, ← List.range_eq_range']

/-- Closed form of the exact-points regime of the distribution builder. -/
lemma buildDistribution_exact_eq (values : List ℚ)
    (h50 : values.length ≤ 50) (hmm : minOf values ≠ maxOf values) :
    buildDistribution values =
      (List.range values.length).map
        (fun i => ((sortedOf values).getD i 0, i + 1)) := by
  unfold buildDistribution
  have hne : values.length ≠ 0 := by
    intro h0
    apply hmm
    have : sortedOf values = [] := List.eq_nil_of_length_eq_zero (by rw [sortedOf_length, h0])
    simp [minOf, maxOf, this]
  rw [if_neg hne, if_neg hmm, if_pos (by rw [sortedOf_length]; omega), sortedOf_length]

/-- Monotone-count chains for point lists built by mapping over `range`. -/
lemma chain_of_map_range (m : ℕ) (f : ℕ → ℚ × ℕ)
    (hf : ∀ k, k + 1 < m → (f k).2 ≤ (f (k + 1)).2) :
    List.Chain' (fun p q : ℚ × ℕ => p.2 ≤ q.2) ((List.range m).map f) := by
  rw [List.chain'_iff_get]
  intro i hi
  simp only [List.length_map, List.length_range] at hi
  simp only [List.get_eq_getElem, List.getElem_map, List.getElem_range]
  exact hf i (by omega)

/-- Elements `≤ t` and elements `> t` partition a list. -/
lemma countP_le_add_countP_gt (s : List ℚ) (t : ℚ) :
    s.countP (fun x => decide (x ≤ t)) + s.countP (fun x => decide (t < x)) = s.length := by
  induction s with
  | nil => simp
  | cons a tl ih =>
    by_cases h : a ≤ t
    · rw [List.countP_cons_of_pos _ _ (by simpa using h),
        List.countP_cons_of_neg _ _ (by simpa using not_lt.mpr h), List.length_cons]
      omega
    · rw [List.countP_cons_of_neg _ _ (by simpa using h),
        List.countP_cons_of_pos _ _ (by simpa using not_le.mp h), List.length_cons]
      omega

/-- Elements `< t` and elements `≥ t` partition a list. -/
lemma countP_lt_add_countP_ge (s : List ℚ) (t : ℚ) :
    s.countP (fun x => decide (x < t)) + s.countP (fun x => decide (t ≤ x)) = s.length := by
  induction s with
  | nil => simp
  | cons a tl ih =>
    by_cases h : a < t
    · rw [List.countP_cons_of_pos _ _ (by simpa using h),
        List.countP_cons_of_neg _ _ (by simpa using not_le.mpr h), List.length_cons]
      omega
    · rw [List.countP_cons_of_neg _ _ (by simpa using h),
        List.countP_cons_of_pos _ _ (by simpa using not_lt.mp h), List.length_cons]
      omega

/-! ### Claim theorems -/

/-- C1: for a sorted list `s`, `getCountAtThreshold mode s t` counts the
elements `x` with `x < t` for mode `lt`, `x ≤ t` for `lte`, `x > t` for `gt`,
`x ≥ t` for `gte`; it is `0` on the empty list (the count of an empty list is
`0` in every branch of the right-hand side), and every mode string outside the
four listed values yields the `lte` count. -/
theorem getCountAtThreshold_correct (mode : String) (s : List ℚ) (t : ℚ)
    (hs : List.Sorted (· ≤ ·) s) :
    getCountAtThreshold mode s t =
      (if mode = "lt" then s.countP (fun x => decide (x < t))
       else if mode = "gt" then s.countP (fun x => decide (t < x))
       else if mode = "gte" then s.countP (fun x => decide (t ≤ x))
       else s.countP (fun x => decide (x ≤ t))) := by
  unfold getCountAtThreshold
  by_cases h0 : s.length = 0
  · have hnil : s = [] := List.eq_nil_of_length_eq_zero h0
    subst hnil
    simp
  · rw [if_neg h0]
    by_cases hlt : mode = "lt"
    · rw [if_pos hlt, if_pos hlt]
      exact lowerBound_eq_countP hs t
    · rw [if_neg hlt, if_neg hlt]
      by_cases hlte : mode = "lte"
      · rw [if_pos hlte, if_neg (by rw [hlte]; decide), if_neg (by rw [hlte]; decide)]
        exact upperBound_eq_countP hs t
      · rw [if_neg hlte]
        by_cases hgt : mode = "gt"
        · rw [if_pos hgt, if_pos hgt, upperBound_eq_countP hs t]
          have := countP_le_add_countP_gt s t
          omega
        · rw [if_neg hgt, if_neg hgt]
          by_cases hgte : mode = "gte"
          · rw [if_pos hgte, if_pos hgte, lowerBound_eq_countP hs t]
            have := countP_lt_add_countP_ge s t
            omega
          · rw [if_neg hgte, if_neg hgte]
            exact upperBound_eq_countP hs t

/-- C1 witness: on `[1, 2, 2, 5, 9]` with threshold `2`, mode `lt` counts one
element. -/
theorem getCountAtThreshold_correct_witness :
    List.Sorted (· ≤ ·) ([1, 2, 2, 5, 9] : List ℚ) ∧
    getCountAtThreshold "lt" [1, 2, 2, 5, 9] 2 = 1 := by
  refine ⟨by decide, ?_⟩
  rw [getCountAtThreshold_correct "lt" [1, 2, 2, 5, 9] 2 (by decide)]
  decide

/-- C2: on a sorted list, `lowerBound s t` is the first index whose element is
`≥ t` (every earlier element is `< t`; it equals the count of elements `< t`,
hence is the length when no element is `≥ t`), and `upperBound s t` is the
first index whose element is `> t` (it equals the count of elements `≤ t`). -/
theorem bounds_characterization (s : List ℚ) (t : ℚ)
    (hs : List.Sorted (· ≤ ·) s) :
    lowerBound s t ≤ s.length ∧
    (∀ i, i < lowerBound s t → s.getD i 0 < t) ∧
    (lowerBound s t < s.length → t ≤ s.getD (lowerBound s t) 0) ∧
    lowerBound s t = s.countP (fun x => decide (x < t)) ∧
    upperBound s t ≤ s.length ∧
    (∀ i, i < upperBound s t → s.getD i 0 ≤ t) ∧
    (upperBound s t < s.length → t < s.getD (upperBound s t) 0) ∧
    upperBound s t = s.countP (fun x => decide (x ≤ t)) := by
  have hlb := bsearchAux_boundary s (fun v => decide (v < t))
    (downward_getD (p := fun v => decide (v < t)) hs (fun u v huv hv => by
      rw [decide_eq_true_eq] at hv ⊢
      exact lt_of_le_of_lt huv hv))
    s.length 0 s.length (by omega) (Nat.zero_le _) (le_refl _) (by omega) (by omega)
  have hub := bsearchAux_boundary s (fun v => decide (v ≤ t))
    (downward_getD (p := fun v => decide (v ≤ t)) hs (fun u v huv hv => by
      rw [decide_eq_true_eq] at hv ⊢
      exact le_trans huv hv))
    s.length 0 s.length (by omega) (Nat.zero_le _) (le_refl _) (by omega) (by omega)
  refine ⟨lowerBound_le_length s t, ?_, ?_, lowerBound_eq_countP hs t,
    upperBound_le_length s t, ?_, ?_, upperBound_eq_countP hs t⟩
  · intro i hi
    exact of_decide_eq_true (hlb.1 i hi)
  · intro hlen
    have := hlb.2 (lowerBound s t) (le_refl _) hlen
    rw [decide_eq_false_iff_not, not_lt] at this
    exact this
  · intro i hi
    exact of_decide_eq_true (hub.1 i hi)
  · intro hlen
    have := hub.2 (upperBound s t) (le_refl _) hlen
    rw [decide_eq_false_iff_not, not_le] at this
    exact this

/-- C2 witness: on `[1, 2, 2, 5, 9]` with threshold `2`, `lowerBound` is `1`
and `upperBound` is `3`. -/
theorem bounds_characterization_witness :
    List.Sorted (· ≤ ·) ([1, 2, 2, 5, 9] : List ℚ) ∧
    lowerBound [1, 2, 2, 5, 9] 2 = 1 ∧ upperBound [1, 2, 2, 5, 9] 2 = 3 := by
  refine ⟨by decide, ?_, ?_⟩
  · rw [(bounds_characterization [1, 2, 2, 5, 9] 2 (by decide)).2.2.2.1]
    decide
  · rw [(bounds_characterization [1, 2, 2, 5, 9] 2 (by decide)).2.2.2.2.2.2.2]
    decide

/-- C3: on any sorted list, the `lt` and `gte` counts sum to the length, and
so do the `lte` and `gt` counts. -/
theorem counts_complementary (s : List ℚ) (t : ℚ)
    (_hs : List.Sorted (· ≤ ·) s) :
    getCountAtThreshold "lt" s t + getCountAtThreshold "gte" s t = s.length ∧
    getCountAtThreshold "lte" s t + getCountAtThreshold "gt" s t = s.length := by
  have h1 := lowerBound_le_length s t
  have h2 := upperBound_le_length s t
  unfold getCountAtThreshold
  by_cases h0 : s.length = 0
  · simp only [if_pos h0]
    omega
  · simp only [if_neg h0]
    simp
    omega

/-- C3 witness: both complements hold on `[1, 2, 2, 5, 9]` at threshold `5`. -/
theorem counts_complementary_witness :
    List.Sorted (· ≤ ·) ([1, 2, 2, 5, 9] : List ℚ) ∧
    getCountAtThreshold "lt" [1, 2, 2, 5, 9] 5 + getCountAtThreshold "gte" [1, 2, 2, 5, 9] 5 = 5 := by
  refine ⟨by decide, ?_⟩
  have h := (counts_complementary [1, 2, 2, 5, 9] 5 (by decide)).1
  simpa using h

/-- C6: with more than 50 values and distinct extremes, the distribution
builder produces `min 100 n + 1` points at the evenly spaced boundaries
`min + i*(max-min)/min(100,n)`, and the running-index count at each boundary
is `upperBound` of the sorted array there (the number of sorted elements `≤`
the boundary). -/
theorem buildDistribution_binned (values : List ℚ)
    (h50 : 50 < values.length) (hmm : minOf values < maxOf values) :
    buildDistribution values =
      (List.range (min 100 values.length + 1)).map (fun (i : ℕ) =>
        (minOf values + (i : ℚ) *
          ((maxOf values - minOf values) / ((min 100 values.length : ℕ) : ℚ)),
         upperBound (sortedOf values) (minOf values + (i : ℚ) *
          ((maxOf values - minOf values) / ((min 100 values.length : ℕ) : ℚ))))) ∧
    (buildDistribution values).length = min 100 values.length + 1 := by
  have heq := buildDistribution_binned_eq values h50 (ne_of_lt hmm)
  constructor
  · rw [heq]
    apply List.map_congr_left
    intro i _
    rw [upperBound_eq_countP (sortedOf_sorted values)]
  · rw [heq]
    simp

/-- C6 witness: on the values `1..51`, the builder produces `52` points. -/
theorem buildDistribution_binned_witness :
    50 < ([1, 2, 3, 4, 5, 6, 7, 8, 9, 10, 11, 12, 13, 14, 15, 16, 17, 18, 19, 20,
      21, 22, 23, 24, 25, 26, 27, 28, 29, 30, 31, 32, 33, 34, 35, 36, 37, 38, 39,
      40, 41, 42, 43, 44, 45, 46, 47, 48, 49, 50, 51] : List ℚ).length ∧
    minOf [1, 2, 3, 4, 5, 6, 7, 8, 9, 10, 11, 12, 13, 14, 15, 16, 17, 18, 19, 20,
      21, 22, 23, 24, 25, 26, 27, 28, 29, 30, 31, 32, 33, 34, 35, 36, 37, 38, 39,
      40, 41, 42, 43, 44, 45, 46, 47, 48, 49, 50, 51] <
    maxOf [1, 2, 3, 4, 5, 6, 7, 8, 9, 10, 11, 12, 13, 14, 15, 16, 17, 18, 19, 20,
      21, 22, 23, 24, 25, 26, 27, 28, 29, 30, 31, 32, 33, 34, 35, 36, 37, 38, 39,
      40, 41, 42, 43, 44, 45, 46, 47, 48, 49, 50, 51] ∧
    (buildDistribution [1, 2, 3, 4, 5, 6, 7, 8, 9, 10, 11, 12, 13, 14, 15, 16, 17,
      18, 19, 20, 21, 22, 23, 24, 25, 26, 27, 28, 29, 30, 31, 32, 33, 34, 35, 36,
      37, 38, 39, 40, 41, 42, 43, 44, 45, 46, 47, 48, 49, 50, 51]).length = 52 := by
  refine ⟨by decide, by decide, ?_⟩
  have h := (buildDistribution_binned [1, 2, 3, 4, 5, 6, 7, 8, 9, 10, 11, 12, 13,
    14, 15, 16, 17, 18, 19, 20, 21, 22, 23, 24, 25, 26, 27, 28, 29, 30, 31, 32,
    33, 34, 35, 36, 37, 38, 39, 40, 41, 42, 43, 44, 45, 46, 47, 48, 49, 50, 51]
    (by decide) (by decide)).2
  rw [h]
  decide

/-- C7: in every regime the cumulative counts are non-decreasing along the
produced sequence, and in the exact-points regime (`n ≤ 50`, distinct
extremes) the points are exactly `(sorted[i], i+1)`, so the final point's
count is the input size. -/
theorem buildDistribution_invariants (values : List ℚ) :
    List.Chain' (fun p q : ℚ × ℕ => p.2 ≤ q.2) (buildDistribution values) ∧
    (values.length ≤ 50 → minOf values < maxOf values →
      buildDistribution values =
        (List.range values.length).map (fun i => ((sortedOf values).getD i 0, i + 1)) ∧
      ((buildDistribution values).getLast?).map Prod.snd = some values.length) := by
  constructor
  · by_cases h0 : values.length = 0
    · unfold buildDistribution
      rw [if_pos h0]
      exact List.chain'_nil
    · by_cases hmm : minOf values = maxOf values
      · unfold buildDistribution
        rw [if_neg h0, if_pos hmm, List.chain'_cons]
        exact ⟨Nat.zero_le _, List.chain'_singleton _⟩
      · by_cases h50 : values.length ≤ 50
        · rw [buildDistribution_exact_eq values h50 hmm]
          apply chain_of_map_range
          intro k _
          exact Nat.le_succ (k + 1)
        · rw [buildDistribution_binned_eq values (by omega) hmm]
          apply chain_of_map_range
          intro k _
          simp only
          apply List.countP_mono_left
          intro x _ hx
          rw [decide_eq_true_eq] at hx ⊢
          have hbs : (0 : ℚ) ≤ (maxOf values - minOf values) /
              ((min 100 values.length : ℕ) : ℚ) := by
            apply div_nonneg
            · have := minOf_le_maxOf (show values.length ≠ 0 by omega)
              linarith
            · positivity
          have hcast : ((k + 1 : ℕ) : ℚ) = (k : ℚ) + 1 := by push_cast; ring
          rw [hcast]
          nlinarith
  · intro h50 hmm
    have heq := buildDistribution_exact_eq values h50 (ne_of_lt hmm)
    refine ⟨heq, ?_⟩
    have hpos : 0 < values.length := by
      by_contra hc
      have h0 : values.length = 0 := by omega
      have hnil : sortedOf values = [] :=
        List.eq_nil_of_length_eq_zero (by rw [sortedOf_length, h0])
      rw [show minOf values = 0 from by simp [minOf, hnil],
        show maxOf values = 0 from by simp [maxOf, hnil]] at hmm
      exact lt_irrefl 0 hmm
    rw [heq, List.getLast?_eq_getElem?]
    simp only [List.length_map, List.length_range, List.getElem?_map,
      List.getElem?_range, Option.map_map]
    rw [List.getElem?_range (by omega)]
    have hsucc : values.length - 1 + 1 = values.length := by omega
    simp [hsucc]

/-- C7 witness: on `[3, 1, 2]` the exact regime applies and the final point's
count is the input size `3`. -/
theorem buildDistribution_invariants_witness :
    ([3, 1, 2] : List ℚ).length ≤ 50 ∧ minOf [3, 1, 2] < maxOf [3, 1, 2] ∧
    ((buildDistribution [3, 1, 2]).getLast?).map Prod.snd = some 3 := by
  refine ⟨by decide, by decide, ?_⟩
  have h := (buildDistribution_invariants [3, 1, 2]).2 (by decide) (by decide)
  simpa using h.2

/-- C5 (amended): `thresholdToPercentage` returns `0` on a degenerate range,
the logarithmic formula exactly when the flag is set and `min`, `max` and `t`
are all positive, the linear formula otherwise, and its result lies in
`[0, 100]` whenever `min ≤ t ≤ max` (without that restriction the result can
leave `[0, 100]`, as the unclamped linear formula shows). -/
theorem thresholdToPercentage_spec (minV maxV t : ℝ) (lg : Bool) :
    (maxV = minV → thresholdToPercentage minV maxV t lg = 0) ∧
    (maxV ≠ minV → (lg = true ∧ 0 < minV ∧ 0 < maxV ∧ 0 < t) →
      thresholdToPercentage minV maxV t lg =
        ((Real.log t - Real.log minV) / (Real.log maxV - Real.log minV)) * 100) ∧
    (maxV ≠ minV → ¬(lg = true ∧ 0 < minV ∧ 0 < maxV ∧ 0 < t) →
      thresholdToPercentage minV maxV t lg = ((t - minV) / (maxV - minV)) * 100) ∧
    (minV ≤ t → t ≤ maxV →
      0 ≤ thresholdToPercentage minV maxV t lg ∧
      thresholdToPercentage minV maxV t lg ≤ 100) := by
  refine ⟨?_, ?_, ?_, ?_⟩
  · intro heq
    unfold thresholdToPercentage
    rw [if_pos heq]
  · intro hne hlog
    unfold thresholdToPercentage
    rw [if_neg hne, if_pos hlog]
  · intro hne hlog
    unfold thresholdToPercentage
    rw [if_neg hne, if_neg hlog]
  · intro h1 h2
    unfold thresholdToPercentage
    by_cases heq : maxV = minV
    · rw [if_pos heq]
      norm_num
    · rw [if_neg heq]
      have hlt : minV < maxV := lt_of_le_of_ne (le_trans h1 h2) (Ne.symm heq)
      by_cases hlog : lg = true ∧ 0 < minV ∧ 0 < maxV ∧ 0 < t
      · rw [if_pos hlog]
        obtain ⟨-, hmin, hmax, ht⟩ := hlog
        have l1 : Real.log minV ≤ Real.log t := (Real.log_le_log_iff hmin ht).mpr h1
        have l2 : Real.log t ≤ Real.log maxV := (Real.log_le_log_iff ht hmax).mpr h2
        have l3 : Real.log minV < Real.log maxV := Real.log_lt_log hmin hlt
        constructor
        · apply mul_nonneg _ (by norm_num)
          apply div_nonneg <;> linarith
        · have hq : (Real.log t - Real.log minV) / (Real.log maxV - Real.log minV) ≤ 1 :=
            (div_le_one (by linarith)).mpr (by linarith)
          nlinarith
      · rw [if_neg hlog]
        constructor
        · apply mul_nonneg _ (by norm_num)
          apply div_nonneg <;> linarith
        · have hq : (t - minV) / (maxV - minV) ≤ 1 :=
            (div_le_one (by linarith)).mpr (by linarith)
          nlinarith

/-- C5 counterexample: with `min = 0`, `max = 100` and threshold `200` the
linear formula is unclamped, so the result `200` is outside `[0, 100]`. -/
theorem thresholdToPercentage_range_cex :
    thresholdToPercentage 0 100 200 false = 200 ∧ ¬((200 : ℝ) ≤ 100) := by
  constructor
  · unfold thresholdToPercentage
    rw [if_neg (by norm_num), if_neg (by simp)]
    norm_num
  · norm_num

/-- C5 witness: `thresholdToPercentage 0 100 50 false = 50`, inside
`[0, 100]`. -/
theorem thresholdToPercentage_spec_witness :
    ((0 : ℝ) ≤ 50 ∧ (50 : ℝ) ≤ 100) ∧
    thresholdToPercentage 0 100 50 false = 50 ∧
    (0 ≤ thresholdToPercentage 0 100 50 false ∧
      thresholdToPercentage 0 100 50 false ≤ 100) := by
  have heval : thresholdToPercentage 0 100 50 false = ((50 - 0) / (100 - 0)) * 100 :=
    (thresholdToPercentage_spec 0 100 50 false).2.2.1 (by norm_num) (by simp)
  refine ⟨⟨by norm_num, by norm_num⟩, by rw [heval]; norm_num,
    (thresholdToPercentage_spec 0 100 50 false).2.2.2 (by norm_num) (by norm_num)⟩

/-- C10: with the log flag set and positive `min` and `max`, a non-positive
threshold still takes the linear formula — the logarithmic branch requires
all three of `min`, `max`, `t` to be positive. -/
theorem log_flag_linear_fallback (minV maxV t : ℝ)
    (_hmin : 0 < minV) (_hmax : 0 < maxV) (ht : t ≤ 0) :
    thresholdToPercentage minV maxV t true = ((t - minV) / (maxV - minV)) * 100 := by
  unfold thresholdToPercentage
  by_cases heq : maxV = minV
  · rw [if_pos heq, heq]
    simp
  · rw [if_neg heq, if_neg (fun h => absurd h.2.2.2 (not_lt.mpr ht))]

/-- C10 witness: at `min = 1`, `max = 2`, `t = -1` the log flag is ignored and
the linear formula applies. -/
theorem log_flag_linear_fallback_witness :
    (0 : ℝ) < 1 ∧ (0 : ℝ) < 2 ∧ (-1 : ℝ) ≤ 0 ∧
    thresholdToPercentage 1 2 (-1) true = ((-1 - 1) / (2 - 1)) * 100 :=
  ⟨by norm_num, by norm_num, by norm_num,
    log_flag_linear_fallback 1 2 (-1) (by norm_num) (by norm_num) (by norm_num)⟩

/-- C4: mapping a value to its percentage with `thresholdToPercentage`,
dividing by `100`, and mapping back through the drag controller's
interpolation returns the value exactly — for any value on a linear scale,
and for positive `min`, `max` and value on a logarithmic scale. -/
theorem scale_maps_inverse (minV maxV x : ℝ) (hmm : minV < maxV) (lg : Bool)
    (hpos : lg = true → 0 < minV ∧ 0 < maxV ∧ 0 < x) :
    fractionToValue minV maxV (thresholdToPercentage minV maxV x lg / 100) lg = x := by
  have hne : maxV - minV ≠ 0 := sub_ne_zero.mpr (ne_of_gt hmm)
  cases lg with
  | false =>
    unfold thresholdToPercentage fractionToValue
    rw [if_neg (ne_of_gt hmm), if_neg (by simp), if_neg (by simp)]
    field_simp
    ring
  | true =>
    obtain ⟨hmin, hmax, hx⟩ := hpos rfl
    have hlog : Real.log minV < Real.log maxV := Real.log_lt_log hmin hmm
    have hlne : Real.log maxV - Real.log minV ≠ 0 := sub_ne_zero.mpr (ne_of_gt hlog)
    have hc1 : true = true ∧ 0 < minV ∧ 0 < maxV ∧ 0 < x := ⟨rfl, hmin, hmax, hx⟩
    have hc2 : true = true ∧ 0 < minV := ⟨rfl, hmin⟩
    unfold thresholdToPercentage fractionToValue
    rw [if_neg (ne_of_gt hmm), if_pos hc2, if_pos hc1]
    rw [show Real.log minV +
        ((Real.log x - Real.log minV) / (Real.log maxV - Real.log minV)) * 100 / 100 *
          (Real.log maxV - Real.log minV) = Real.log x from by field_simp; ring]
    exact Real.exp_log hx

/-- C4 witness: a linear round trip at `min = 0`, `max = 1`, `x = 1/2`. -/
theorem scale_maps_inverse_witness :
    (0 : ℝ) < 1 ∧
    fractionToValue 0 1 (thresholdToPercentage 0 1 (1 / 2) false / 100) false = 1 / 2 :=
  ⟨by norm_num, scale_maps_inverse 0 1 (1 / 2) (by norm_num) false (by simp)⟩

/-- C9 (amended): the drag fraction always lies in `[0, 1]`; with nonzero
width and a nonzero pointer offset it is the clamped quotient; a zero offset
yields fraction `1` (the `|| 1` fallback applies to the quotient, not the
width); with zero width the fraction is `1` for a nonnegative offset and `0`
for a negative one. -/
theorem dragFraction_spec (x w : ℝ) :
    (0 ≤ dragFraction x w ∧ dragFraction x w ≤ 1) ∧
    (w ≠ 0 → x ≠ 0 → dragFraction x w = max 0 (min 1 (x / w))) ∧
    (x = 0 → dragFraction x w = 1) ∧
    (w = 0 → dragFraction x w = if x < 0 then 0 else 1) := by
  refine ⟨?_, ?_, ?_, ?_⟩
  · unfold dragFraction
    by_cases hw : w = 0
    · rw [if_pos hw]
      by_cases hx : x < 0
      · rw [if_pos hx]
        norm_num
      · rw [if_neg hx]
        norm_num
    · rw [if_neg hw]
      by_cases hq : x / w = 0
      · rw [if_pos hq]
        norm_num
      · rw [if_neg hq]
        constructor
        · exact le_max_left 0 _
        · exact max_le (by norm_num) (min_le_left 1 _)
  · intro hw hx
    unfold dragFraction
    rw [if_neg hw, if_neg (div_ne_zero hx hw)]
  · intro hx
    subst hx
    unfold dragFraction
    by_cases hw : w = 0
    · rw [if_pos hw, if_neg (by norm_num)]
    · rw [if_neg hw, if_pos (zero_div w)]
  · intro hw
    unfold dragFraction
    rw [if_pos hw]

/-- C9 counterexample: with nonzero width `100` and pointer offset `0` the
code yields fraction `1`, not the clamped quotient `0` the claim requires. -/
theorem dragFraction_cex :
    dragFraction 0 100 = 1 ∧ max 0 (min 1 ((0 : ℝ) / 100)) = 0 ∧ ((1 : ℝ) ≠ 0) := by
  refine ⟨?_, by norm_num, by norm_num⟩
  unfold dragFraction
  rw [if_neg (by norm_num), if_pos (by norm_num)]

/-- C9 witness: at offset `50` and width `100` the fraction is the clamped
quotient. -/
theorem dragFraction_spec_witness :
    ((100 : ℝ) ≠ 0) ∧ ((50 : ℝ) ≠ 0) ∧
    dragFraction 50 100 = max 0 (min 1 ((50 : ℝ) / 100)) :=
  ⟨by norm_num, by norm_num,
    (dragFraction_spec 50 100).2.1 (by norm_num) (by norm_num)⟩

/-! ### Tick generation -/

/-- The auto tick count is at least `6`. -/
lemma autoTickCount_ge (w : ℝ) : 6 ≤ autoTickCount w := le_max_left 6 _

/-- The auto tick count is non-decreasing in the width. -/
lemma autoTickCount_mono {w1 w2 : ℝ} (h : w1 ≤ w2) :
    autoTickCount w1 ≤ autoTickCount w2 := by
  unfold autoTickCount
  apply max_le_max (le_refl 6)
  apply Int.toNat_le_toNat
  rw [round_eq, round_eq]
  exact Int.floor_le_floor (by linarith)

/-- Head of a mapped range. -/
lemma head?_map_range {α : Type} (c : ℕ) (hc : 0 < c) (f : ℕ → α) :
    ((List.range c).map f).head? = some (f 0) := by
  rw [List.head?_eq_getElem?]
  simp [List.getElem?_map, List.getElem?_range hc]

/-- Last element of a mapped range. -/
lemma getLast?_map_range {α : Type} (c : ℕ) (hc : 0 < c) (f : ℕ → α) :
    ((List.range c).map f).getLast? = some (f (c - 1)) := by
  rw [List.getLast?_eq_getElem?]
  simp only [List.length_map, List.length_range, List.getElem?_map, Option.map_map]
  rw [List.getElem?_range (by omega)]
  simp

/-- Inversion of a successful `computeTicks` call: the guards failed and the
result is the mapped range of the branch that applies. -/
lemma computeTicks_some_eq (minV maxV w : ℝ) (lg : Bool) (req : Option ℕ)
    (ts : List ℝ) (hts : computeTicks minV maxV lg w req = some ts) :
    maxV ≠ minV ∧ 2 ≤ req.getD (autoTickCount w) ∧
    ((lg = true ∧ 0 < minV) →
      ts = (List.range (req.getD (autoTickCount w))).map (fun (i : ℕ) =>
        Real.exp (Real.log minV +
          ((i : ℝ) / ((req.getD (autoTickCount w) : ℝ) - 1)) *
            (Real.log maxV - Real.log minV)))) ∧
    (¬(lg = true ∧ 0 < minV) →
      ts = (List.range (req.getD (autoTickCount w))).map (fun (i : ℕ) =>
        minV + ((i : ℝ) / ((req.getD (autoTickCount w) : ℝ) - 1)) *
          (maxV - minV))) := by
  unfold computeTicks at hts
  by_cases heq : maxV = minV
  · rw [if_pos heq] at hts
    exact absurd hts (by simp)
  · rw [if_neg heq] at hts
    by_cases hc : req.getD (autoTickCount w) < 2
    · rw [if_pos hc] at hts
      exact absurd hts (by simp)
    · rw [if_neg hc] at hts
      by_cases hl : lg = true ∧ 0 < minV
      · rw [if_pos hl] at hts
        exact ⟨heq, by omega, fun _ => (Option.some.inj hts).symm,
          fun hcon => absurd hl hcon⟩
      · rw [if_neg hl] at hts
        exact ⟨heq, by omega, fun hcon => absurd hcon hl,
          fun _ => (Option.some.inj hts).symm⟩

/-- C8 (amended): `computeTicks` returns no sequence exactly when the range is
degenerate or the resolved count (the requested count if given, else
`max 6 (round (width/40))`) is below `2`; a returned sequence has exactly the
resolved count of elements, starts at `min`, and — provided `max > 0` whenever
the logarithmic branch (`logScale` with `min > 0`) is taken — ends at `max`;
with no requested count the sequence has at least `6` elements, and the
resolved count is non-decreasing in the width. -/
theorem computeTicks_spec (minV maxV w : ℝ) (lg : Bool) (req : Option ℕ) :
    (computeTicks minV maxV lg w req = none ↔
      (maxV = minV ∨ req.getD (autoTickCount w) < 2)) ∧
    (∀ ts, computeTicks minV maxV lg w req = some ts →
      ts.length = req.getD (autoTickCount w) ∧
      ts.head? = some minV ∧
      ((lg = true → 0 < minV → 0 < maxV) → ts.getLast? = some maxV)) ∧
    (req = none → ∀ ts, computeTicks minV maxV lg w req = some ts →
      6 ≤ ts.length) ∧
    (∀ w2, w ≤ w2 → autoTickCount w ≤ autoTickCount w2) := by
  refine ⟨?_, ?_, ?_, fun w2 h => autoTickCount_mono h⟩
  · unfold computeTicks
    by_cases heq : maxV = minV
    · rw [if_pos heq]
      simp [heq]
    · rw [if_neg heq]
      by_cases hc : req.getD (autoTickCount w) < 2
      · rw [if_pos hc]
        simp [heq, hc]
      · rw [if_neg hc]
        by_cases hl : lg = true ∧ 0 < minV
        · rw [if_pos hl]
          simp [heq, hc]
        · rw [if_neg hl]
          simp [heq, hc]
  · intro ts hts
    obtain ⟨heq, hc2, hlog, hlin⟩ := computeTicks_some_eq minV maxV w lg req ts hts
    have hc0 : 0 < req.getD (autoTickCount w) := by omega
    have hcR : (2 : ℝ) ≤ ((req.getD (autoTickCount w) : ℕ) : ℝ) := by
      exact_mod_cast hc2
    have hne1 : ((req.getD (autoTickCount w) : ℕ) : ℝ) - 1 ≠ 0 :=
      ne_of_gt (by linarith)
    have hcast : ((req.getD (autoTickCount w) - 1 : ℕ) : ℝ)
        = ((req.getD (autoTickCount w) : ℕ) : ℝ) - 1 := by
      push_cast [Nat.cast_sub (by omega : 1 ≤ req.getD (autoTickCount w))]
      ring
    by_cases hl : lg = true ∧ 0 < minV
    · rw [hlog hl]
      refine ⟨by simp, ?_, ?_⟩
      · rw [head?_map_range _ hc0]
        simp [Real.exp_log hl.2]
      · intro hpos
        have hmax : 0 < maxV := hpos hl.1 hl.2
        rw [getLast?_map_range _ hc0]
        simp only [Option.some.injEq]
        rw [hcast, div_self hne1, one_mul,
          show Real.log minV + (Real.log maxV - Real.log minV) = Real.log maxV from by ring]
        exact Real.exp_log hmax
    · rw [hlin hl]
      refine ⟨by simp, ?_, ?_⟩
      · rw [head?_map_range _ hc0]
        simp
      · intro _
        rw [getLast?_map_range _ hc0]
        simp only [Option.some.injEq]
        rw [hcast, div_self hne1, one_mul]
        ring
  · intro hreq ts hts
    obtain ⟨heq, hc2, hlog, hlin⟩ := computeTicks_some_eq minV maxV w lg req ts hts
    subst hreq
    have h6 : 6 ≤ autoTickCount w := autoTickCount_ge w
    by_cases hl : lg = true ∧ 0 < minV
    · rw [hlog hl]
      simpa using h6
    · rw [hlin hl]
      simpa using h6

/-- C8 counterexample: with the log flag, `min = 1 > 0` and `max = -1`, a
two-tick sequence is returned whose last element is `1` (in exact real
arithmetic both ticks collapse to `exp (log 1) = 1`), not `max = -1`. -/
theorem computeTicks_last_cex :
    computeTicks 1 (-1) true 0 (some 2) = some [1, 1] ∧
    ([1, 1] : List ℝ).getLast? = some 1 ∧ ((1 : ℝ) ≠ -1) := by
  refine ⟨?_, by simp, by norm_num⟩
  unfold computeTicks
  rw [if_neg (by norm_num)]
  simp only [Option.getD_some]
  rw [if_neg (by norm_num), if_pos (show True ∧ (0 : ℝ) < 1 from by norm_num)]
  simp only [Option.some.injEq]
  rw [show (2 : ℕ) = 1 + 1 from rfl, List.range_succ, List.range_succ, List.range_zero]
  simp only [List.nil_append, List.cons_append, List.map_cons, List.map_nil]
  rw [show Real.log (-1) = Real.log 1 from Real.log_neg_eq_log 1]
  simp [Real.log_one]

/-- C8 witness: a linear call with requested count `5` spans `[0, 100]` with
five ticks. -/
theorem computeTicks_spec_witness :
    computeTicks 0 100 false 200 (some 5) = some [0, 25, 50, 75, 100] ∧
    ([0, 25, 50, 75, 100] : List ℝ).length = 5 ∧
    ([0, 25, 50, 75, 100] : List ℝ).head? = some 0 ∧
    ([0, 25, 50, 75, 100] : List ℝ).getLast? = some 100 := by
  have heval : computeTicks 0 100 false 200 (some 5) = some [0, 25, 50, 75, 100] := by
    unfold computeTicks
    rw [if_neg (by norm_num)]
    simp only [Option.getD_some]
    rw [if_neg (by norm_num), if_neg (by simp)]
    simp only [Option.some.injEq]
    rw [show (5 : ℕ) = 0 + 1 + 1 + 1 + 1 + 1 from rfl, List.range_succ, List.range_succ,
      List.range_succ, List.range_succ, List.range_succ, List.range_zero]
    norm_num
  have h := (computeTicks_spec 0 100 200 false (some 5)).2.1 _ heval
  exact ⟨heval, h.1, h.2.1, h.2.2 (by simp)⟩

end CrComponents
